import Mathlib

/-!
Verification of the name-resolution core of the Nominalist repository
(`src/services/name_service.py`): the fuzzy name matcher
(`NameMatcher.get_top_matches` and its three metric backends), the
resolution entry point (`NameService.get_english_name`) and the dataset
loader (`DataManager.__init__`).

Strings are modelled as Lean `String`s, similarity scores as exact
rationals (the source computes them in IEEE doubles; all values that
arise are small-denominator rationals, so `ℚ` is the faithful exact
model), pandas row order as list order, and raised exceptions as
`Except` error values.
-/

namespace Nominalist

/-! ## Levenshtein distance

The source scores rows with `rapidfuzz.distance.Levenshtein.normalized_similarity`,
the normalized similarity `1 - dist/max(len a, len b)` of the uniform-cost
edit distance (insert, delete, substitute).  `lev` is the textbook
recursion; `levCons` is its inner loop on the second string, written so
that the whole definition is structurally recursive (hence reducible by
the kernel). -/

/-- Inner recursion: given `f = lev xs`, computes `lev (x :: xs)`. -/
def levCons (x : Char) (f : List Char → Nat) : List Char → Nat
  | [] => f [] + 1
  | y :: ys =>
      min (f (y :: ys) + 1)
        (min (levCons x f ys + 1) (f ys + (if x = y then 0 else 1)))

/-- Uniform-cost edit distance (insert, delete, substitute). -/
def lev : List Char → List Char → Nat
  | [], ys => ys.length
  | x :: xs, ys => levCons x (lev xs) ys

theorem lev_nil (ys : List Char) : lev [] ys = ys.length := rfl

theorem lev_cons_nil (x : Char) (xs : List Char) :
    lev (x :: xs) [] = xs.length + 1 := by
  induction xs with
  | nil => rfl
  | cons a t ih => simp [lev, levCons] at ih ⊢; omega

theorem lev_cons_cons (x y : Char) (xs ys : List Char) :
    lev (x :: xs) (y :: ys) =
      min (lev xs (y :: ys) + 1)
        (min (lev (x :: xs) ys + 1) (lev xs ys + (if x = y then 0 else 1))) := rfl

theorem lev_le_max : ∀ xs ys : List Char, lev xs ys ≤ max xs.length ys.length := by
  intro xs
  induction xs with
  | nil => intro ys; simp [lev_nil]
  | cons x xs ihx =>
      intro ys
      induction ys with
      | nil => simp [lev_cons_nil]
      | cons y ys ihy =>
          rw [lev_cons_cons]
          have h1 := ihx ys
          have h2 : (if x = y then 0 else 1) ≤ 1 := by split <;> omega
          simp only [List.length_cons]
          omega

theorem lev_self : ∀ xs : List Char, lev xs xs = 0 := by
  intro xs
  induction xs with
  | nil => rfl
  | cons x t ih =>
      rw [lev_cons_cons]
      simp [ih]

theorem lev_eq_zero : ∀ xs ys : List Char, lev xs ys = 0 → xs = ys := by
  intro xs
  induction xs with
  | nil =>
      intro ys h
      rw [lev_nil] at h
      exact (List.length_eq_zero.mp h).symm
  | cons x xs ihx =>
      intro ys h
      cases ys with
      | nil => rw [lev_cons_nil] at h; omega
      | cons y ys =>
          rw [lev_cons_cons] at h
          by_cases hxy : x = y
          · rw [if_pos hxy] at h
            have hC : lev xs ys = 0 := by omega
            rw [hxy, ihx ys hC]
          · rw [if_neg hxy] at h
            exfalso; omega

/-! ## Damerau-Levenshtein distance

The source scores rows with
`rapidfuzz.distance.DamerauLevenshtein.normalized_similarity`.  `dl`
models that third-party metric by the edit-distance recursion extended
with an adjacent-transposition operation of unit cost; the claims
checked below depend only on its range and on `dl a b = 0 ↔ a = b`,
on which the restricted and unrestricted Damerau variants agree. -/

/-- Edit distance with insert, delete, substitute and adjacent
transposition, all unit cost. -/
def dl : List Char → List Char → Nat
  | [], ys => ys.length
  | _ :: xs, [] => xs.length + 1
  | x :: xs, y :: ys =>
      let base :=
        min (dl xs (y :: ys) + 1)
          (min (dl (x :: xs) ys + 1) (dl xs ys + (if x = y then 0 else 1)))
      if xs.head? = some y ∧ ys.head? = some x then
        min base (dl xs.tail ys.tail + 1)
      else base
termination_by xs ys => xs.length + ys.length
decreasing_by
  all_goals simp [List.length_tail]
  all_goals omega

theorem dl_nil (ys : List Char) : dl [] ys = ys.length := by simp [dl]

theorem dl_cons_nil (x : Char) (xs : List Char) : dl (x :: xs) [] = xs.length + 1 := by
  simp [dl]

theorem dl_cons_cons (x y : Char) (xs ys : List Char) :
    dl (x :: xs) (y :: ys) =
      if xs.head? = some y ∧ ys.head? = some x then
        min
          (min (dl xs (y :: ys) + 1)
            (min (dl (x :: xs) ys + 1) (dl xs ys + (if x = y then 0 else 1))))
          (dl xs.tail ys.tail + 1)
      else
        min (dl xs (y :: ys) + 1)
          (min (dl (x :: xs) ys + 1) (dl xs ys + (if x = y then 0 else 1))) := by
  rw [dl]

theorem dl_self : ∀ xs : List Char, dl xs xs = 0 := by
  intro xs
  induction xs with
  | nil => simp [dl_nil]
  | cons x t ih =>
      rw [dl_cons_cons]
      have hcost : (if x = x then (0 : Nat) else 1) = 0 := if_pos rfl
      rw [hcost]
      have h : dl t t = 0 := ih
      split <;> omega

theorem dl_le_max_aux :
    ∀ n, ∀ xs ys : List Char, xs.length + ys.length ≤ n →
      dl xs ys ≤ max xs.length ys.length := by
  intro n
  induction n with
  | zero =>
      intro xs ys h
      have hx : xs = [] := by
        cases xs with
        | nil => rfl
        | cons a t => simp at h
      have hy : ys = [] := by
        cases ys with
        | nil => rfl
        | cons a t => simp at h
      subst hx; subst hy; simp [dl_nil]
  | succ n ih =>
      intro xs ys h
      cases xs with
      | nil => simp [dl_nil]
      | cons x xs =>
          cases ys with
          | nil => simp [dl_cons_nil]
          | cons y ys =>
              rw [dl_cons_cons]
              have hsub : dl xs ys ≤ max xs.length ys.length := by
                apply ih; simp at h ⊢; omega
              have hc : (if x = y then 0 else 1) ≤ 1 := by split <;> omega
              simp only [List.length_cons]
              split <;> omega

theorem dl_le_max (xs ys : List Char) : dl xs ys ≤ max xs.length ys.length :=
  dl_le_max_aux (xs.length + ys.length) xs ys le_rfl

theorem dl_eq_zero_aux :
    ∀ n, ∀ xs ys : List Char, xs.length + ys.length ≤ n →
      dl xs ys = 0 → xs = ys := by
  intro n
  induction n with
  | zero =>
      intro xs ys h _
      cases xs with
      | nil =>
          cases ys with
          | nil => rfl
          | cons b t => simp at h
      | cons a t => simp at h
  | succ n ih =>
      intro xs ys h h0
      cases xs with
      | nil =>
          rw [dl_nil] at h0
          exact (List.length_eq_zero.mp h0).symm
      | cons x xs =>
          cases ys with
          | nil => rw [dl_cons_nil] at h0; omega
          | cons y ys =>
              rw [dl_cons_cons] at h0
              have hxy : x = y ∧ dl xs ys = 0 := by
                by_cases hc : x = y
                · refine ⟨hc, ?_⟩
                  rw [if_pos hc] at h0
                  split at h0 <;> omega
                · exfalso
                  rw [if_neg hc] at h0
                  split at h0 <;> omega
              have hlen : xs.length + ys.length ≤ n := by
                simp only [List.length_cons] at h; omega
              rw [hxy.1, ih xs ys hlen hxy.2]

/-! ## Jaro-Winkler similarity

The source scores rows with `rapidfuzz.distance.JaroWinkler.similarity`:
the Jaro similarity (greedy in-window character matching, transposition
count over the matched subsequences) with the standard Winkler boost
(shared leading characters capped at 4, weight 1/10, applied when the
Jaro similarity exceeds 7/10). -/

/-- Scan positions `lo, lo+1, ...` (at most `fuel` of them) of `b` for the
first position holding character `c` that is not yet in `used`. -/
def scanJ (b : List Char) (used : List Nat) (c : Char) : Nat → Nat → Option Nat
  | _, 0 => none
  | lo, fuel + 1 =>
      if b[lo]? = some c ∧ lo ∉ used then some lo
      else scanJ b used c (lo + 1) fuel

/-- First unused position of `b` within the Jaro window `[i-w, i+w]`
holding character `c`. -/
def matchIndex (b : List Char) (used : List Nat) (c : Char) (i w : Nat) : Option Nat :=
  scanJ b used c (i - w) (i + w + 1 - (i - w))

/-- Greedy Jaro matching: for each indexed character of the query, match it
to the first available in-window equal character of `b`.  Returns the
matched triples `(i, c, j)` in query order. -/
def jaroPairs (b : List Char) (w : Nat) : List (Nat × Char) → List Nat → List (Nat × Char × Nat)
  | [], _ => []
  | (i, c) :: rest, used =>
      match matchIndex b used c i w with
      | some j => (i, c, j) :: jaroPairs b w rest (j :: used)
      | none => jaroPairs b w rest used

/-- Characters paired with their positions, starting at position `i`. -/
def enumFrom : Nat → List Char → List (Nat × Char)
  | _, [] => []
  | i, c :: cs => (i, c) :: enumFrom (i + 1) cs

/-- Number of positions at which two character lists disagree. -/
def countDiff : List Char → List Char → Nat
  | x :: xs, y :: ys => (if x = y then 0 else 1) + countDiff xs ys
  | _, _ => 0

/-- Length of the shared leading segment of two character lists. -/
def commonLead : List Char → List Char → Nat
  | x :: xs, y :: ys => if x = y then 1 + commonLead xs ys else 0
  | _, _ => 0

/-- The Jaro match window. -/
def jaroW (a b : List Char) : Nat := max a.length b.length / 2 - 1

/-- The greedy matching of `a` against `b`. -/
def jaroP (a b : List Char) : List (Nat × Char × Nat) :=
  jaroPairs b (jaroW a b) (enumFrom 0 a) []

/-- Positions of `b` consumed by the matching. -/
def jaroJs (a b : List Char) : List Nat := (jaroP a b).map (fun p => p.2.2)

/-- Matched characters of `a`, in `a`-order. -/
def jaroA (a b : List Char) : List Char := (jaroP a b).map (fun p => p.2.1)

/-- Matched characters of `b`, in `b`-order. -/
def jaroB (a b : List Char) : List Char :=
  (enumFrom 0 b).filterMap (fun q => if q.1 ∈ jaroJs a b then some q.2 else none)

/-- The transposition term: half the number of disagreeing positions of the
two matched sequences. -/
def jaroT (a b : List Char) : ℚ := (countDiff (jaroA a b) (jaroB a b) : ℚ) / 2

/-- Jaro similarity in `[0, 1]`. -/
def jaroSim (a b : List Char) : ℚ :=
  if a.length = 0 ∧ b.length = 0 then 1
  else if a.length = 0 ∨ b.length = 0 then 0
  else if (jaroP a b).length = 0 then 0
  else
    (((jaroP a b).length : ℚ) / a.length + ((jaroP a b).length : ℚ) / b.length +
      (((jaroP a b).length : ℚ) - jaroT a b) / (jaroP a b).length) / 3

/-- Jaro-Winkler similarity in `[0, 1]`. -/
def jaroWinkler (a b : List Char) : ℚ :=
  if 7 / 10 < jaroSim a b then
    jaroSim a b + (min 4 (commonLead a b) : ℚ) * (1 / 10) * (1 - jaroSim a b)
  else jaroSim a b

theorem scanJ_sound (b : List Char) (used : List Nat) (c : Char) :
    ∀ fuel lo j, scanJ b used c lo fuel = some j → b[j]? = some c ∧ j ∉ used := by
  intro fuel
  induction fuel with
  | zero => intro lo j h; simp [scanJ] at h
  | succ n ih =>
      intro lo j h
      rw [scanJ] at h
      split at h
      · rename_i hcond
        cases h
        exact hcond
      · exact ih (lo + 1) j h

theorem scanJ_hits (b : List Char) (used : List Nat) (c : Char) :
    ∀ fuel lo tgt, lo ≤ tgt → tgt < lo + fuel →
      (∀ j, lo ≤ j → j < tgt → j ∈ used) →
      b[tgt]? = some c → tgt ∉ used →
      scanJ b used c lo fuel = some tgt := by
  intro fuel
  induction fuel with
  | zero => intro lo tgt h1 h2 _ _ _; omega
  | succ n ih =>
      intro lo tgt h1 h2 hused hb htgt
      rw [scanJ]
      by_cases hlo : lo = tgt
      · subst hlo
        rw [if_pos ⟨hb, htgt⟩]
      · have hlt : lo < tgt := by omega
        rw [if_neg ?_]
        · exact ih (lo + 1) tgt (by omega) (by omega)
            (fun j hj1 hj2 => hused j (by omega) hj2) hb htgt
        · intro hcond
          exact absurd (hused lo le_rfl hlt) hcond.2

theorem enumFrom_length : ∀ (i : Nat) (s : List Char), (enumFrom i s).length = s.length := by
  intro i s
  induction s generalizing i with
  | nil => rfl
  | cons c cs ih => simp [enumFrom, ih]

theorem enumFrom_map_snd : ∀ (i : Nat) (s : List Char),
    (enumFrom i s).map (fun p => p.2) = s := by
  intro i s
  induction s generalizing i with
  | nil => rfl
  | cons c cs ih => simp [enumFrom, ih]

theorem enumFrom_fst_bound : ∀ (i : Nat) (s : List Char) (p : Nat × Char),
    p ∈ enumFrom i s → i ≤ p.1 ∧ p.1 < i + s.length := by
  intro i s
  induction s generalizing i with
  | nil => intro p h; simp [enumFrom] at h
  | cons c cs ih =>
      intro p h
      rw [enumFrom] at h
      rcases List.mem_cons.mp h with h | h
      · subst h; simp
      · have := ih (i + 1) p h
        simp only [List.length_cons]
        omega

theorem countDiff_self : ∀ xs : List Char, countDiff xs xs = 0 := by
  intro xs
  induction xs with
  | nil => rfl
  | cons x t ih => simp [countDiff, ih]

theorem countDiff_le_length : ∀ xs ys : List Char, countDiff xs ys ≤ xs.length := by
  intro xs
  induction xs with
  | nil => intro ys; simp [countDiff]
  | cons x t ih =>
      intro ys
      cases ys with
      | nil => simp [countDiff]
      | cons y ys =>
          have h := ih ys
          have hc : (if x = y then 0 else 1) ≤ 1 := by split <;> omega
          simp only [countDiff, List.length_cons]
          omega

theorem countDiff_eq_zero : ∀ xs ys : List Char,
    xs.length = ys.length → countDiff xs ys = 0 → xs = ys := by
  intro xs
  induction xs with
  | nil =>
      intro ys hlen _
      exact (List.length_eq_zero.mp hlen.symm).symm
  | cons x t ih =>
      intro ys hlen h0
      cases ys with
      | nil => simp at hlen
      | cons y ys =>
          simp only [countDiff] at h0
          have hx : x = y := by
            by_contra hc
            rw [if_neg hc] at h0
            omega
          have ht : countDiff t ys = 0 := by
            split at h0 <;> omega
          simp only [List.length_cons] at hlen
          rw [hx, ih ys (by omega) ht]

theorem jaroPairs_length_le (b : List Char) (w : Nat) :
    ∀ (l : List (Nat × Char)) (used : List Nat),
      (jaroPairs b w l used).length ≤ l.length := by
  intro l
  induction l with
  | nil => intro used; simp [jaroPairs]
  | cons p rest ih =>
      intro used
      obtain ⟨i, c⟩ := p
      rw [jaroPairs]
      cases h : matchIndex b used c i w with
      | some j =>
          simp only [List.length_cons]
          exact Nat.succ_le_succ (ih (j :: used))
      | none =>
          simp only [List.length_cons]
          exact Nat.le_succ_of_le (ih used)

theorem jaroPairs_sound (b : List Char) (w : Nat) :
    ∀ (l : List (Nat × Char)) (used : List Nat),
      (jaroPairs b w l used).Pairwise (fun p q => p.2.2 ≠ q.2.2) ∧
      ∀ p ∈ jaroPairs b w l used, b[p.2.2]? = some p.2.1 ∧ p.2.2 ∉ used := by
  intro l
  induction l with
  | nil => intro used; simp [jaroPairs]
  | cons p rest ih =>
      intro used
      obtain ⟨i, c⟩ := p
      rw [jaroPairs]
      cases h : matchIndex b used c i w with
      | some j =>
          have hj := scanJ_sound b used c _ _ j h
          obtain ⟨ihp, ihs⟩ := ih (j :: used)
          constructor
          · refine List.Pairwise.cons ?_ ihp
            intro q hq
            have := (ihs q hq).2
            simp only [List.mem_cons] at this
            intro heq
            exact this (Or.inl heq.symm)
          · intro q hq
            rcases List.mem_cons.mp hq with hq | hq
            · subst hq; exact ⟨hj.1, hj.2⟩
            · obtain ⟨h1, h2⟩ := ihs q hq
              simp only [List.mem_cons] at h2
              exact ⟨h1, fun hmem => h2 (Or.inr hmem)⟩
      | none => exact ih used

theorem jaroPairs_full (b : List Char) (w : Nat) :
    ∀ (l : List (Nat × Char)) (used : List Nat),
      (jaroPairs b w l used).length = l.length →
      (jaroPairs b w l used).map (fun p => (p.1, p.2.1)) = l := by
  intro l
  induction l with
  | nil => intro used _; simp [jaroPairs]
  | cons p rest ih =>
      intro used hlen
      obtain ⟨i, c⟩ := p
      rw [jaroPairs] at hlen ⊢
      cases h : matchIndex b used c i w with
      | some j =>
          rw [h] at hlen
          simp only [List.length_cons] at hlen
          simp only [List.map_cons]
          rw [ih (j :: used) (by omega)]
      | none =>
          rw [h] at hlen
          have := jaroPairs_length_le b w rest used
          simp only [List.length_cons] at hlen
          omega

theorem jaroPairs_diag (b : List Char) (w : Nat) :
    ∀ (s : List Char) (i : Nat) (used : List Nat),
      b.drop i = s → (∀ j, j ∈ used ↔ j < i) →
      jaroPairs b w (enumFrom i s) used =
        (enumFrom i s).map (fun p => (p.1, p.2, p.1)) := by
  intro s
  induction s with
  | nil => intro i used _ _; simp [enumFrom, jaroPairs]
  | cons c s' ih =>
      intro i used hdrop hused
      have hib : b[i]? = some c := by
        have hlt : i < b.length := by
          by_contra hge
          rw [List.drop_eq_nil_of_le (by omega)] at hdrop
          exact List.cons_ne_nil c s' hdrop.symm
        have : b.drop i = b[i] :: b.drop (i + 1) := List.drop_eq_getElem_cons hlt
        rw [this] at hdrop
        rw [List.getElem?_eq_getElem hlt]
        exact congrArg some (List.head_eq_of_cons_eq hdrop)
      have hmi : matchIndex b used c i w = some i := by
        unfold matchIndex
        apply scanJ_hits b used c _ _ i (by omega) (by omega)
        · intro j _ hj
          exact (hused j).mpr hj
        · exact hib
        · intro hmem
          exact absurd ((hused i).mp hmem) (by omega)
      have step : jaroPairs b w ((i, c) :: enumFrom (i + 1) s') used =
          (i, c, i) :: jaroPairs b w (enumFrom (i + 1) s') (i :: used) := by
        rw [jaroPairs, hmi]
      rw [enumFrom, step, List.map_cons]
      congr 1
      apply ih (i + 1) (i :: used)
      · have : b.drop (i + 1) = (b.drop i).drop 1 := by
          rw [List.drop_drop]
        rw [this, hdrop, List.drop_one, List.tail_cons]
      · intro j
        simp only [List.mem_cons, hused j]
        omega

theorem jaroP_length_le_a (a b : List Char) : (jaroP a b).length ≤ a.length := by
  have h := jaroPairs_length_le b (jaroW a b) (enumFrom 0 a) []
  rwa [enumFrom_length] at h

theorem jaroJs_nodup (a b : List Char) : (jaroJs a b).Nodup := by
  have h := (jaroPairs_sound b (jaroW a b) (enumFrom 0 a) []).1
  exact h.map _ (fun p q hpq => hpq)

theorem jaroJs_lt (a b : List Char) : ∀ j ∈ jaroJs a b, j < b.length := by
  intro j hj
  simp only [jaroJs, List.mem_map] at hj
  obtain ⟨p, hp, rfl⟩ := hj
  have h := ((jaroPairs_sound b (jaroW a b) (enumFrom 0 a) []).2 p hp).1
  have : p.2.2 < b.length := by
    by_contra hge
    rw [List.getElem?_eq_none (by omega)] at h
    exact Option.noConfusion h
  exact this

theorem jaroP_length_le_b (a b : List Char) : (jaroP a b).length ≤ b.length := by
  have hn := jaroJs_nodup a b
  have hsub : jaroJs a b ⊆ List.range b.length := fun j hj =>
    List.mem_range.mpr (jaroJs_lt a b j hj)
  have h := (List.subperm_of_subset hn hsub).length_le
  rw [List.length_range] at h
  simpa [jaroJs] using h

theorem jaroA_of_full (a b : List Char) (h : (jaroP a b).length = a.length) :
    jaroA a b = a := by
  have hfull := jaroPairs_full b (jaroW a b) (enumFrom 0 a) []
    (by rw [enumFrom_length]; exact h)
  have hA : jaroA a b =
      ((jaroP a b).map (fun p => (p.1, p.2.1))).map (fun q => q.2) := by
    simp [jaroA, List.map_map]
  rw [hA]
  unfold jaroP
  rw [hfull, enumFrom_map_snd]

theorem enumFrom_filterMap_all (js : List Nat) :
    ∀ (s : List Char) (i : Nat),
      (∀ j, i ≤ j → j < i + s.length → j ∈ js) →
      (enumFrom i s).filterMap (fun q => if q.1 ∈ js then some q.2 else none) = s := by
  intro s
  induction s with
  | nil => intro i _; simp [enumFrom]
  | cons c cs ih =>
      intro i hall
      have hi : i ∈ js := hall i le_rfl (by simp only [List.length_cons]; omega)
      rw [enumFrom, List.filterMap_cons]
      simp only [hi, if_pos]
      rw [ih (i + 1) (fun j h1 h2 => hall j (by omega)
        (by simp only [List.length_cons]; omega))]

theorem jaroB_of_full (a b : List Char) (h : (jaroP a b).length = b.length) :
    jaroB a b = b := by
  have hn := jaroJs_nodup a b
  have hsub : jaroJs a b ⊆ List.range b.length := fun j hj =>
    List.mem_range.mpr (jaroJs_lt a b j hj)
  have hlenjs : (jaroJs a b).length = b.length := by
    simpa [jaroJs] using h
  have hperm : List.Perm (jaroJs a b) (List.range b.length) :=
    (List.subperm_of_subset hn hsub).perm_of_length_le
      (by rw [List.length_range, hlenjs])
  have hmem : ∀ j, 0 ≤ j → j < 0 + b.length → j ∈ jaroJs a b := by
    intro j _ hj
    exact hperm.mem_iff.mpr (List.mem_range.mpr (by omega))
  exact enumFrom_filterMap_all (jaroJs a b) b 0 hmem

theorem jaroT_nonneg (a b : List Char) : 0 ≤ jaroT a b := by
  unfold jaroT
  positivity

theorem jaroT_le (a b : List Char) : jaroT a b ≤ ((jaroP a b).length : ℚ) := by
  unfold jaroT
  have h : countDiff (jaroA a b) (jaroB a b) ≤ (jaroP a b).length := by
    have := countDiff_le_length (jaroA a b) (jaroB a b)
    simpa [jaroA] using this
  have h2 : (countDiff (jaroA a b) (jaroB a b) : ℚ) ≤ ((jaroP a b).length : ℚ) := by
    exact_mod_cast h
  linarith


theorem jaroSim_nonneg (a b : List Char) : 0 ≤ jaroSim a b := by
  unfold jaroSim
  split
  · norm_num
  · split
    · norm_num
    · split
      · norm_num
      · rename_i h1 h2 h3
        have hla : 0 < (a.length : ℚ) := by
          have : a.length ≠ 0 := fun hc => h2 (Or.inl hc)
          exact_mod_cast Nat.pos_of_ne_zero this
        have hlb : 0 < (b.length : ℚ) := by
          have : b.length ≠ 0 := fun hc => h2 (Or.inr hc)
          exact_mod_cast Nat.pos_of_ne_zero this
        have hm : 0 < ((jaroP a b).length : ℚ) := by
          exact_mod_cast Nat.pos_of_ne_zero h3
        have ht0 := jaroT_nonneg a b
        have ht1 := jaroT_le a b
        have e1 : 0 ≤ ((jaroP a b).length : ℚ) / a.length := by positivity
        have e2 : 0 ≤ ((jaroP a b).length : ℚ) / b.length := by positivity
        have e3 : 0 ≤ (((jaroP a b).length : ℚ) - jaroT a b) / (jaroP a b).length :=
          div_nonneg (by linarith) (le_of_lt hm)
        linarith

theorem jaroSim_le_one (a b : List Char) : jaroSim a b ≤ 1 := by
  unfold jaroSim
  split
  · norm_num
  · split
    · norm_num
    · split
      · norm_num
      · rename_i h1 h2 h3
        have hla : 0 < (a.length : ℚ) := by
          have : a.length ≠ 0 := fun hc => h2 (Or.inl hc)
          exact_mod_cast Nat.pos_of_ne_zero this
        have hlb : 0 < (b.length : ℚ) := by
          have : b.length ≠ 0 := fun hc => h2 (Or.inr hc)
          exact_mod_cast Nat.pos_of_ne_zero this
        have hm : 0 < ((jaroP a b).length : ℚ) := by
          exact_mod_cast Nat.pos_of_ne_zero h3
        have hma : ((jaroP a b).length : ℚ) ≤ (a.length : ℚ) := by
          exact_mod_cast jaroP_length_le_a a b
        have hmb : ((jaroP a b).length : ℚ) ≤ (b.length : ℚ) := by
          exact_mod_cast jaroP_length_le_b a b
        have ht0 := jaroT_nonneg a b
        have e1 : ((jaroP a b).length : ℚ) / a.length ≤ 1 := (div_le_one hla).mpr hma
        have e2 : ((jaroP a b).length : ℚ) / b.length ≤ 1 := (div_le_one hlb).mpr hmb
        have e3 : (((jaroP a b).length : ℚ) - jaroT a b) / (jaroP a b).length ≤ 1 :=
          (div_le_one hm).mpr (by linarith)
        linarith

theorem jaroSim_self (a : List Char) : jaroSim a a = 1 := by
  by_cases ha : a.length = 0
  · unfold jaroSim
    rw [if_pos ⟨ha, ha⟩]
  · have hP : jaroP a a = (enumFrom 0 a).map (fun p => (p.1, p.2, p.1)) := by
      unfold jaroP
      exact jaroPairs_diag a (jaroW a a) a 0 [] (by simp) (by simp)
    have hm : (jaroP a a).length = a.length := by
      rw [hP, List.length_map, enumFrom_length]
    have hA := jaroA_of_full a a hm
    have hB := jaroB_of_full a a hm
    have hT : jaroT a a = 0 := by
      unfold jaroT
      rw [hA, hB, countDiff_self]
      norm_num
    unfold jaroSim
    rw [if_neg (fun hc => ha hc.1), if_neg (fun hc => hc.elim ha ha),
      if_neg (fun hc => ha (hm ▸ hc)), hm, hT]
    have hla : (a.length : ℚ) ≠ 0 := by exact_mod_cast ha
    field_simp
    norm_num

theorem jaroSim_eq_one (a b : List Char) (h : jaroSim a b = 1) : a = b := by
  unfold jaroSim at h
  split at h
  · rename_i h1
    rw [List.length_eq_zero.mp h1.1, List.length_eq_zero.mp h1.2]
  · split at h
    · norm_num at h
    · split at h
      · norm_num at h
      · rename_i h1 h2 h3
        have hla : 0 < (a.length : ℚ) := by
          have : a.length ≠ 0 := fun hc => h2 (Or.inl hc)
          exact_mod_cast Nat.pos_of_ne_zero this
        have hlb : 0 < (b.length : ℚ) := by
          have : b.length ≠ 0 := fun hc => h2 (Or.inr hc)
          exact_mod_cast Nat.pos_of_ne_zero this
        have hm : 0 < ((jaroP a b).length : ℚ) := by
          exact_mod_cast Nat.pos_of_ne_zero h3
        have hma : ((jaroP a b).length : ℚ) ≤ (a.length : ℚ) := by
          exact_mod_cast jaroP_length_le_a a b
        have hmb : ((jaroP a b).length : ℚ) ≤ (b.length : ℚ) := by
          exact_mod_cast jaroP_length_le_b a b
        have ht0 := jaroT_nonneg a b
        have e1 : ((jaroP a b).length : ℚ) / a.length ≤ 1 := (div_le_one hla).mpr hma
        have e2 : ((jaroP a b).length : ℚ) / b.length ≤ 1 := (div_le_one hlb).mpr hmb
        have e3 : (((jaroP a b).length : ℚ) - jaroT a b) / (jaroP a b).length ≤ 1 :=
          (div_le_one hm).mpr (by linarith)
        have s1 : ((jaroP a b).length : ℚ) / a.length = 1 := by linarith
        have s2 : ((jaroP a b).length : ℚ) / b.length = 1 := by linarith
        have s3 : (((jaroP a b).length : ℚ) - jaroT a b) / (jaroP a b).length = 1 := by
          linarith
        have hmaN : (jaroP a b).length = a.length := by
          have hq := (div_eq_iff (ne_of_gt hla)).mp s1
          have hq2 : ((jaroP a b).length : ℚ) = (a.length : ℚ) := by linarith
          exact_mod_cast hq2
        have hmbN : (jaroP a b).length = b.length := by
          have hq := (div_eq_iff (ne_of_gt hlb)).mp s2
          have hq2 : ((jaroP a b).length : ℚ) = (b.length : ℚ) := by linarith
          exact_mod_cast hq2
        have hT : jaroT a b = 0 := by
          have := (div_eq_iff (ne_of_gt hm)).mp s3
          linarith
        have hA := jaroA_of_full a b hmaN
        have hB := jaroB_of_full a b hmbN
        have hcd : countDiff a b = 0 := by
          unfold jaroT at hT
          rw [hA, hB] at hT
          have : (countDiff a b : ℚ) = 0 := by linarith
          exact_mod_cast this
        exact countDiff_eq_zero a b (by omega) hcd

theorem jaroWinkler_nonneg (a b : List Char) : 0 ≤ jaroWinkler a b := by
  unfold jaroWinkler
  have h0 := jaroSim_nonneg a b
  have h1 := jaroSim_le_one a b
  split
  · have hlead : (0 : ℚ) ≤ (min 4 (commonLead a b) : ℚ) :=
      le_min (by norm_num) (Nat.cast_nonneg _)
    have hb : 0 ≤ (min 4 (commonLead a b) : ℚ) * (1 / 10) * (1 - jaroSim a b) :=
      mul_nonneg (mul_nonneg hlead (by norm_num)) (by linarith)
    linarith
  · exact h0

theorem jaroWinkler_le_one (a b : List Char) : jaroWinkler a b ≤ 1 := by
  unfold jaroWinkler
  have h1 := jaroSim_le_one a b
  split
  · have hlead : (min 4 (commonLead a b) : ℚ) ≤ 4 := min_le_left _ _
    have hlead0 : (0 : ℚ) ≤ (min 4 (commonLead a b) : ℚ) :=
      le_min (by norm_num) (Nat.cast_nonneg _)
    have hu1 : (min 4 (commonLead a b) : ℚ) * (1 / 10) ≤ 1 := by linarith
    have hu0 : 0 ≤ (min 4 (commonLead a b) : ℚ) * (1 / 10) := by linarith
    have hprod : 0 ≤ (1 - (min 4 (commonLead a b) : ℚ) * (1 / 10)) * (1 - jaroSim a b) :=
      mul_nonneg (by linarith) (by linarith)
    nlinarith [hprod]
  · exact h1

theorem jaroWinkler_self (a : List Char) : jaroWinkler a a = 1 := by
  unfold jaroWinkler
  rw [jaroSim_self]
  norm_num

theorem jaroWinkler_eq_one (a b : List Char) (h : jaroWinkler a b = 1) : a = b := by
  apply jaroSim_eq_one
  have h1 := jaroSim_le_one a b
  unfold jaroWinkler at h
  split at h
  · by_contra hne
    have hlt : jaroSim a b < 1 := lt_of_le_of_ne h1 hne
    have hlead : (min 4 (commonLead a b) : ℚ) ≤ 4 := min_le_left _ _
    have hpos : 0 < (1 - (min 4 (commonLead a b) : ℚ) * (1 / 10)) * (1 - jaroSim a b) :=
      mul_pos (by linarith) (by linarith)
    nlinarith [hpos]
  · rename_i hle
    push_neg at hle
    linarith

/-! ## Normalized scores

rapidfuzz `normalized_similarity` is `1 - dist/max(len a, len b)` (and `1`
when both strings are empty); the source multiplies each similarity
by 100. -/

/-- `1 - d(a,b)/max(|a|,|b|)`, the rapidfuzz normalized similarity of a
distance `d`. -/
def normSim (d : List Char → List Char → Nat) (a b : List Char) : ℚ :=
  if max a.length b.length = 0 then 1
  else 1 - (d a b : ℚ) / (max a.length b.length : ℚ)

theorem normSim_nonneg (d : List Char → List Char → Nat)
    (hmax : ∀ xs ys, d xs ys ≤ max xs.length ys.length) (a b : List Char) :
    0 ≤ normSim d a b := by
  unfold normSim
  split
  · norm_num
  · rename_i h
    have hpos : 0 < (max a.length b.length : ℚ) := by
      exact_mod_cast Nat.pos_of_ne_zero h
    have hle : (d a b : ℚ) ≤ (max a.length b.length : ℚ) := by
      exact_mod_cast hmax a b
    have : (d a b : ℚ) / (max a.length b.length : ℚ) ≤ 1 := (div_le_one hpos).mpr hle
    linarith

theorem normSim_le_one (d : List Char → List Char → Nat) (a b : List Char) :
    normSim d a b ≤ 1 := by
  unfold normSim
  split
  · norm_num
  · rename_i h
    have hpos : 0 < (max a.length b.length : ℚ) := by
      exact_mod_cast Nat.pos_of_ne_zero h
    have : 0 ≤ (d a b : ℚ) / (max a.length b.length : ℚ) :=
      div_nonneg (Nat.cast_nonneg _) (le_of_lt hpos)
    linarith

theorem normSim_eq_one_iff (d : List Char → List Char → Nat)
    (hself : ∀ xs, d xs xs = 0) (hzero : ∀ xs ys, d xs ys = 0 → xs = ys)
    (a b : List Char) : normSim d a b = 1 ↔ a = b := by
  unfold normSim
  constructor
  · intro h
    split at h
    · rename_i hm
      have ha : a.length = 0 := by omega
      have hb : b.length = 0 := by omega
      rw [List.length_eq_zero.mp ha, List.length_eq_zero.mp hb]
    · rename_i hm
      have hpos : 0 < (max a.length b.length : ℚ) := by
        exact_mod_cast Nat.pos_of_ne_zero hm
      have hdiv : (d a b : ℚ) / (max a.length b.length : ℚ) = 0 := by linarith
      have hd0 : (d a b : ℚ) = 0 := by
        rcases div_eq_zero_iff.mp hdiv with h0 | h0
        · exact h0
        · exact absurd h0 (ne_of_gt hpos)
      exact hzero a b (by exact_mod_cast hd0)
  · intro h
    subst h
    rw [hself a]
    split
    · rfl
    · norm_num

/-- Row score of the `levenshtein` method: normalized similarity, times 100. -/
def levScore (q x : String) : ℚ := normSim lev q.data x.data * 100

/-- Row score of the `damerau` method: normalized similarity, times 100. -/
def dlScore (q x : String) : ℚ := normSim dl q.data x.data * 100

/-- Row score of the `jaro_winkler` method: Jaro-Winkler similarity, times 100. -/
def jwScore (q x : String) : ℚ := jaroWinkler q.data x.data * 100

theorem string_data_inj {q x : String} (h : q.data = x.data) : q = x := by
  cases q with
  | mk d1 =>
      cases x with
      | mk d2 =>
          have hd : d1 = d2 := h
          rw [hd]

theorem levScore_nonneg (q x : String) : 0 ≤ levScore q x := by
  have := normSim_nonneg lev lev_le_max q.data x.data
  unfold levScore; linarith

theorem levScore_le_100 (q x : String) : levScore q x ≤ 100 := by
  have := normSim_le_one lev q.data x.data
  unfold levScore; linarith

theorem levScore_eq_100_iff (q x : String) : levScore q x = 100 ↔ q = x := by
  unfold levScore
  constructor
  · intro h
    have hns : normSim lev q.data x.data = 1 := by linarith
    exact string_data_inj ((normSim_eq_one_iff lev lev_self lev_eq_zero _ _).mp hns)
  · intro h
    subst h
    rw [(normSim_eq_one_iff lev lev_self lev_eq_zero _ _).mpr rfl]
    norm_num

theorem dlScore_nonneg (q x : String) : 0 ≤ dlScore q x := by
  have := normSim_nonneg dl dl_le_max q.data x.data
  unfold dlScore; linarith

theorem dlScore_le_100 (q x : String) : dlScore q x ≤ 100 := by
  have := normSim_le_one dl q.data x.data
  unfold dlScore; linarith

theorem dlScore_eq_100_iff (q x : String) : dlScore q x = 100 ↔ q = x := by
  unfold dlScore
  have hzero : ∀ xs ys, dl xs ys = 0 → xs = ys := fun xs ys h =>
    dl_eq_zero_aux (xs.length + ys.length) xs ys le_rfl h
  constructor
  · intro h
    have hns : normSim dl q.data x.data = 1 := by linarith
    exact string_data_inj ((normSim_eq_one_iff dl dl_self hzero _ _).mp hns)
  · intro h
    subst h
    rw [(normSim_eq_one_iff dl dl_self hzero _ _).mpr rfl]
    norm_num

theorem jwScore_nonneg (q x : String) : 0 ≤ jwScore q x := by
  have := jaroWinkler_nonneg q.data x.data
  unfold jwScore; linarith

theorem jwScore_le_100 (q x : String) : jwScore q x ≤ 100 := by
  have := jaroWinkler_le_one q.data x.data
  unfold jwScore; linarith

theorem jwScore_eq_100_iff (q x : String) : jwScore q x = 100 ↔ q = x := by
  unfold jwScore
  constructor
  · intro h
    have hns : jaroWinkler q.data x.data = 1 := by linarith
    exact string_data_inj (jaroWinkler_eq_one _ _ hns)
  · intro h
    subst h
    rw [jaroWinkler_self]
    norm_num

/-! ## Data model

One row of the reference dataset (`persian-gender-by-name.csv`): a
native-script `name`, an `english_name`, and a `gender` tag.  The pandas
DataFrame with its default RangeIndex is modelled as a list of rows whose
index is the list position. -/

structure NameRecord where
  name : String
  english_name : String
  gender : String
deriving DecidableEq

/-- One entry of the list returned by `get_top_matches`: the tuple
`(matched name, score, english_name, index)` built by the matcher. -/
structure MatchResult where
  matched : String
  score : ℚ
  english : String
  idx : Nat
deriving DecidableEq

/-- Exceptions raised by the matching core: `ValueError` for an unknown
method, and the error raised when the merged candidate list is empty
(the `IndexError` of `sorted(...)[0]` on an empty list, called
`NoMatchFoundError` by the specification). -/
inductive MatchError where
  | unsupportedMethod (method : String)
  | noMatchFound
deriving DecidableEq

def NATIVE_LANG : String := "fa"

def TOP_K : Nat := 3

/-- `names_df.at[idx, column]` for the two columns the matcher reads. -/
def getCol (column : String) (r : NameRecord) : String :=
  if column = "name" then r.name else r.english_name

/-- `column = 'name' if lang == NATIVE_LANG else 'english_name'`. -/
def columnFor (lang : String) : String :=
  if lang = NATIVE_LANG then "name" else "english_name"

/-- The scored rows, in dataset order: for each row, the tuple holding the
scanned column value, its score against the query, the row's
`english_name`, and the row index. -/
def scoreRows (column : String) (f : String → ℚ) : Nat → List NameRecord → List MatchResult
  | _, [] => []
  | i, r :: rs =>
      ⟨getCol column r, f (getCol column r), r.english_name, i⟩ ::
        scoreRows column f (i + 1) rs

/-- Score-descending comparison used by `Series.nlargest` and by
`sorted(..., key=lambda x: x[1], reverse=True)`. -/
def rScore (u v : MatchResult) : Prop := v.score ≤ u.score

instance : DecidableRel rScore := fun u v => inferInstanceAs (Decidable (v.score ≤ u.score))

instance : IsTotal MatchResult rScore := ⟨fun u v => le_total v.score u.score⟩

instance : IsTrans MatchResult rScore := ⟨fun _ _ _ h1 h2 => le_trans h2 h1⟩

/-- `scores.nlargest(k)` followed by tuple construction: pandas `nlargest`
with the default `keep='first'` is a stable descending sort truncated to
`k` rows (ties keep original row order). -/
def topMatchesBy (df : List NameRecord) (k : Nat) (column : String) (f : String → ℚ) :
    List MatchResult :=
  (List.insertionSort rScore (scoreRows column f 0 df)).take k

/-- `NameMatcher.get_top_matches`: selects the scanned column from `lang`
(`'name'` for the native language, `'english_name'` for anything else) and
dispatches on `method`; any unrecognized method raises
`ValueError(f"Unsupported method: {method}")`. -/
def get_top_matches (df : List NameRecord) (k : Nat) (name lang method : String) :
    Except MatchError (List MatchResult) :=
  if method = "levenshtein" then .ok (topMatchesBy df k (columnFor lang) (levScore name))
  else if method = "damerau" then .ok (topMatchesBy df k (columnFor lang) (dlScore name))
  else if method = "jaro_winkler" then .ok (topMatchesBy df k (columnFor lang) (jwScore name))
  else .error (.unsupportedMethod method)

/-- `NameService.get_english_name`: one pass with `lang=NATIVE_LANG` (the
native column), one with `lang='english_name'` (hence the English column),
then `sorted(english_mathces + native_matches, key=lambda x: x[1],
reverse=True)[0]` — a stable descending sort of the concatenation with the
English-pass list first — returning field `[2]` (the row's
`english_name`) of the head. -/
def get_english_name (df : List NameRecord) (name : String) : Except MatchError String :=
  match get_top_matches df TOP_K name NATIVE_LANG "levenshtein" with
  | .error e => .error e
  | .ok native_matches =>
      match get_top_matches df TOP_K name "english_name" "levenshtein" with
      | .error e => .error e
      | .ok english_matches =>
          match List.insertionSort rScore (english_matches ++ native_matches) with
          | [] => .error .noMatchFound
          | t :: _ => .ok t.english

/-! ## Dataset loading

`DataManager.__init__` stores the file path and runs
`pd.read_csv(self.names_file)`.  The outcome of that third-party call is
modelled by its three observable cases: the file is missing, the file
cannot be read or parsed, or it parses into a header plus rows. -/

inductive CsvSource where
  | fileMissing
  | unparseable
  | parsed (header : List String) (rows : List (List String))
deriving DecidableEq

inductive DataLoadError where
  | fileMissing
  | unparseable
deriving DecidableEq

/-- `pd.read_csv`: fails on a missing or unreadable/unparseable file,
returns the parsed table otherwise.  It does not check for any
particular column. -/
def read_csv : CsvSource → Except DataLoadError (List String × List (List String))
  | .fileMissing => .error .fileMissing
  | .unparseable => .error .unparseable
  | .parsed header rows => .ok (header, rows)

/-- `DataManager.__init__`: `self.names_df = pd.read_csv(self.names_file)`
and nothing else — in particular no validation that the required columns
are present. -/
def dataManagerInit (src : CsvSource) :
    Except DataLoadError (List String × List (List String)) :=
  read_csv src

instance {e a : Type} [DecidableEq e] [DecidableEq a] : DecidableEq (Except e a) := fun x y =>
  match x, y with
  | .ok u, .ok v =>
      if h : u = v then isTrue (by rw [h]) else isFalse (by intro hc; cases hc; exact h rfl)
  | .error u, .error v =>
      if h : u = v then isTrue (by rw [h]) else isFalse (by intro hc; cases hc; exact h rfl)
  | .ok _, .error _ => isFalse (by intro hc; cases hc)
  | .error _, .ok _ => isFalse (by intro hc; cases hc)

/-! ## Properties of the stable descending sort

Both pandas `nlargest(k, keep='first')` and Python `sorted(...,
reverse=True)` are stable: ties keep their original relative order.  The
following lemmas capture what the claims need: the head of the sorted
list is the first maximal-score element of the input, and the sorted
output is descending with ties in original order. -/

/-- Descending on score; on exact ties, ascending on dataset index. -/
def lexMR (u v : MatchResult) : Prop :=
  v.score ≤ u.score ∧ (u.score = v.score → u.idx < v.idx)

theorem sortHead_firstMax :
    ∀ (l : List MatchResult) (t : MatchResult) (rest : List MatchResult),
      List.insertionSort rScore l = t :: rest →
      ∃ pre suf, l = pre ++ t :: suf ∧ ∀ s ∈ pre, s.score < t.score := by
  intro l
  induction l with
  | nil => intro t rest h; simp [List.insertionSort] at h
  | cons a l ih =>
      intro t rest h
      rw [List.insertionSort] at h
      cases hl : List.insertionSort rScore l with
      | nil =>
          rw [hl] at h
          rw [List.orderedInsert] at h
          injection h with h1 h2
          exact ⟨[], l, by rw [h1]; rfl, by simp⟩
      | cons hh tl' =>
          rw [hl, List.orderedInsert] at h
          by_cases hr : rScore a hh
          · rw [if_pos hr] at h
            injection h with h1 h2
            exact ⟨[], l, by rw [h1]; rfl, by simp⟩
          · rw [if_neg hr] at h
            injection h with h1 h2
            obtain ⟨pre', suf', hdec, hpre⟩ := ih hh tl' hl
            subst h1
            refine ⟨a :: pre', suf', by rw [hdec]; rfl, ?_⟩
            intro s hs
            rcases List.mem_cons.mp hs with hs | hs
            · subst hs
              exact not_le.mp hr
            · exact hpre s hs

theorem orderedInsert_pairwise_lex (a : MatchResult) :
    ∀ (l : List MatchResult), l.Pairwise lexMR → (∀ y ∈ l, a.idx < y.idx) →
      (List.orderedInsert rScore a l).Pairwise lexMR := by
  intro l
  induction l with
  | nil => intro _ _; simp [List.orderedInsert]
  | cons y ys ih =>
      intro hp ha
      have hy := ha y (List.mem_cons_self y ys)
      obtain ⟨hyys, hys⟩ := List.pairwise_cons.mp hp
      rw [List.orderedInsert]
      by_cases hr : rScore a y
      · rw [if_pos hr]
        refine List.pairwise_cons.mpr ⟨?_, hp⟩
        intro z hz
        rcases List.mem_cons.mp hz with hz | hz
        · subst hz
          exact ⟨hr, fun _ => hy⟩
        · have hlyz := hyys z hz
          exact ⟨le_trans hlyz.1 hr, fun _ => ha z (List.mem_cons_of_mem y hz)⟩
      · rw [if_neg hr]
        have hlt : a.score < y.score := not_le.mp hr
        refine List.pairwise_cons.mpr
          ⟨?_, ih hys (fun z hz => ha z (List.mem_cons_of_mem y hz))⟩
        intro z hz
        rcases (List.mem_orderedInsert rScore).mp hz with hz | hz
        · subst hz
          exact ⟨le_of_lt hlt, fun heq => absurd heq (ne_of_gt hlt)⟩
        · exact hyys z hz

theorem insertionSort_pairwise_lex :
    ∀ (l : List MatchResult), l.Pairwise (fun u v => u.idx < v.idx) →
      (List.insertionSort rScore l).Pairwise lexMR := by
  intro l
  induction l with
  | nil => intro _; simp [List.insertionSort]
  | cons a l ih =>
      intro hp
      obtain ⟨ha, hl⟩ := List.pairwise_cons.mp hp
      rw [List.insertionSort]
      apply orderedInsert_pairwise_lex
      · exact ih hl
      · intro y hy
        exact ha y ((List.mem_insertionSort rScore).mp hy)

theorem scoreRows_length (column : String) (f : String → ℚ) :
    ∀ (df : List NameRecord) (i : Nat), (scoreRows column f i df).length = df.length := by
  intro df
  induction df with
  | nil => intro i; rfl
  | cons r rs ih => intro i; simp [scoreRows, ih]

theorem scoreRows_idx_ge (column : String) (f : String → ℚ) :
    ∀ (df : List NameRecord) (i : Nat), ∀ e ∈ scoreRows column f i df, i ≤ e.idx := by
  intro df
  induction df with
  | nil => intro i e he; simp [scoreRows] at he
  | cons r rs ih =>
      intro i e he
      rw [scoreRows] at he
      rcases List.mem_cons.mp he with he | he
      · subst he; exact le_rfl
      · have := ih (i + 1) e he
        omega

theorem scoreRows_pairwise_idx (column : String) (f : String → ℚ) :
    ∀ (df : List NameRecord) (i : Nat),
      (scoreRows column f i df).Pairwise (fun u v => u.idx < v.idx) := by
  intro df
  induction df with
  | nil => intro i; simp [scoreRows]
  | cons r rs ih =>
      intro i
      rw [scoreRows]
      refine List.pairwise_cons.mpr ⟨?_, ih (i + 1)⟩
      intro e he
      have := scoreRows_idx_ge column f rs (i + 1) e he
      simp only []
      omega

theorem scoreRows_mem_spec (column : String) (f : String → ℚ) :
    ∀ (df : List NameRecord) (i : Nat), ∀ e ∈ scoreRows column f i df,
      ∃ r ∈ df, e.matched = getCol column r ∧ e.score = f (getCol column r) ∧
        e.english = r.english_name := by
  intro df
  induction df with
  | nil => intro i e he; simp [scoreRows] at he
  | cons r rs ih =>
      intro i e he
      rw [scoreRows] at he
      rcases List.mem_cons.mp he with he | he
      · subst he
        exact ⟨r, List.mem_cons_self r rs, rfl, rfl, rfl⟩
      · obtain ⟨r', hr', hspec⟩ := ih (i + 1) e he
        exact ⟨r', List.mem_cons_of_mem r hr', hspec⟩

theorem scoreRows_exists (column : String) (f : String → ℚ) :
    ∀ (df : List NameRecord) (i : Nat) (r : NameRecord), r ∈ df →
      ∃ e ∈ scoreRows column f i df,
        e.matched = getCol column r ∧ e.score = f (getCol column r) := by
  intro df
  induction df with
  | nil => intro i r hr; simp at hr
  | cons r0 rs ih =>
      intro i r hr
      rw [scoreRows]
      rcases List.mem_cons.mp hr with hr | hr
      · subst hr
        exact ⟨_, List.mem_cons_self _ _, rfl, rfl⟩
      · obtain ⟨e, he, hspec⟩ := ih (i + 1) r hr
        exact ⟨e, List.mem_cons_of_mem _ he, hspec⟩

theorem topMatchesBy_length (df : List NameRecord) (k : Nat) (column : String)
    (f : String → ℚ) : (topMatchesBy df k column f).length = min k df.length := by
  unfold topMatchesBy
  rw [List.length_take, List.length_insertionSort, scoreRows_length]

theorem topMatchesBy_pairwise (df : List NameRecord) (k : Nat) (column : String)
    (f : String → ℚ) : (topMatchesBy df k column f).Pairwise lexMR :=
  List.Pairwise.sublist (List.take_sublist k _)
    (insertionSort_pairwise_lex _ (scoreRows_pairwise_idx column f df 0))

theorem topMatchesBy_mem_spec (df : List NameRecord) (k : Nat) (column : String)
    (f : String → ℚ) : ∀ e ∈ topMatchesBy df k column f,
      ∃ r ∈ df, e.matched = getCol column r ∧ e.score = f (getCol column r) ∧
        e.english = r.english_name := by
  intro e he
  unfold topMatchesBy at he
  have h1 : e ∈ List.insertionSort rScore (scoreRows column f 0 df) :=
    List.mem_of_mem_take he
  exact scoreRows_mem_spec column f df 0 e ((List.mem_insertionSort rScore).mp h1)

theorem topMatchesBy_head100 (df : List NameRecord) (k : Nat) (column : String)
    (f : String → ℚ) (r : NameRecord) (hr : r ∈ df) (hk : 1 ≤ k)
    (hub : ∀ x, f x ≤ 100) (hrs : f (getCol column r) = 100) :
    ∃ t rest, topMatchesBy df k column f = t :: rest ∧ t.score = 100 ∧
      f t.matched = 100 ∧
      ∃ rt, rt ∈ df ∧ t.matched = getCol column rt ∧ t.english = rt.english_name := by
  have hne : scoreRows column f 0 df ≠ [] := by
    intro hc
    have hl := scoreRows_length column f df 0
    rw [hc] at hl
    cases df with
    | nil => simp at hr
    | cons r0 rs => simp at hl
  cases hs : List.insertionSort rScore (scoreRows column f 0 df) with
  | nil =>
      exfalso
      have hperm := List.perm_insertionSort rScore (scoreRows column f 0 df)
      rw [hs] at hperm
      exact hne (hperm.symm.eq_nil)
  | cons t rest =>
      obtain ⟨k', rfl⟩ : ∃ k', k = k' + 1 := ⟨k - 1, by omega⟩
      have htop : topMatchesBy df (k' + 1) column f = t :: rest.take k' := by
        unfold topMatchesBy
        rw [hs, List.take_succ_cons]
      have ht_mem : t ∈ scoreRows column f 0 df :=
        (List.mem_insertionSort rScore).mp (hs ▸ List.mem_cons_self t rest)
      obtain ⟨rt, hrt, hm, hscore, hen⟩ := scoreRows_mem_spec column f df 0 t ht_mem
      have hub_t : t.score ≤ 100 := by rw [hscore]; exact hub _
      obtain ⟨e, he, hem, hes⟩ := scoreRows_exists column f df 0 r hr
      have he_sorted : e ∈ List.insertionSort rScore (scoreRows column f 0 df) :=
        (List.mem_insertionSort rScore).mpr he
      rw [hs] at he_sorted
      have hsorted : List.Sorted rScore (t :: rest) :=
        hs ▸ List.sorted_insertionSort rScore (scoreRows column f 0 df)
      have hte : 100 ≤ t.score := by
        rcases List.mem_cons.mp he_sorted with he2 | he2
        · rw [← he2, hes, hrs]
        · have hrel := List.rel_of_sorted_cons hsorted e he2
          rw [rScore] at hrel
          rw [hes, hrs] at hrel
          exact hrel
      have ht100 : t.score = 100 := le_antisymm hub_t hte
      refine ⟨t, rest.take k', htop, ht100, ?_, rt, hrt, hm, hen⟩
      rw [hm, ← hscore, ht100]

theorem get_top_matches_lev (df : List NameRecord) (k : Nat) (name lang : String) :
    get_top_matches df k name lang "levenshtein" =
      .ok (topMatchesBy df k (columnFor lang) (levScore name)) := by rfl

theorem get_top_matches_dam (df : List NameRecord) (k : Nat) (name lang : String) :
    get_top_matches df k name lang "damerau" =
      .ok (topMatchesBy df k (columnFor lang) (dlScore name)) := by rfl

theorem get_top_matches_jw (df : List NameRecord) (k : Nat) (name lang : String) :
    get_top_matches df k name lang "jaro_winkler" =
      .ok (topMatchesBy df k (columnFor lang) (jwScore name)) := by rfl

theorem get_top_matches_other (df : List NameRecord) (k : Nat) (name lang method : String)
    (h1 : method ≠ "levenshtein") (h2 : method ≠ "damerau") (h3 : method ≠ "jaro_winkler") :
    get_top_matches df k name lang method = .error (.unsupportedMethod method) := by
  unfold get_top_matches
  rw [if_neg h1, if_neg h2, if_neg h3]

theorem columnFor_fa : columnFor "fa" = "name" := by rfl

theorem columnFor_ne (lang : String) (h : lang ≠ "fa") :
    columnFor lang = "english_name" := by
  unfold columnFor
  exact if_neg (fun hc => h hc)

theorem get_english_name_eq (df : List NameRecord) (name : String) :
    get_english_name df name =
      match List.insertionSort rScore
          (topMatchesBy df TOP_K "english_name" (levScore name) ++
            topMatchesBy df TOP_K "name" (levScore name)) with
      | [] => .error .noMatchFound
      | t :: _ => .ok t.english := by rfl

theorem get_english_name_spec (df : List NameRecord) (name : String) (hdf : df ≠ []) :
    ∃ t pre suf,
      get_english_name df name = .ok t.english ∧
      topMatchesBy df TOP_K "english_name" (levScore name) ++
        topMatchesBy df TOP_K "name" (levScore name) = pre ++ t :: suf ∧
      (∀ s ∈ pre, s.score < t.score) ∧
      (∀ s ∈ topMatchesBy df TOP_K "english_name" (levScore name) ++
          topMatchesBy df TOP_K "name" (levScore name), s.score ≤ t.score) := by
  have hpos : 0 < df.length := List.length_pos.mpr hdf
  have hlen : (topMatchesBy df TOP_K "english_name" (levScore name)).length =
      min TOP_K df.length := topMatchesBy_length df TOP_K "english_name" (levScore name)
  have hne : topMatchesBy df TOP_K "english_name" (levScore name) ++
      topMatchesBy df TOP_K "name" (levScore name) ≠ [] := by
    intro hc
    obtain ⟨hc1, _⟩ := List.append_eq_nil.mp hc
    rw [hc1] at hlen
    unfold TOP_K at hlen
    simp at hlen
    omega
  cases hs : List.insertionSort rScore
      (topMatchesBy df TOP_K "english_name" (levScore name) ++
        topMatchesBy df TOP_K "name" (levScore name)) with
  | nil =>
      exfalso
      have hperm := List.perm_insertionSort rScore
        (topMatchesBy df TOP_K "english_name" (levScore name) ++
          topMatchesBy df TOP_K "name" (levScore name))
      rw [hs] at hperm
      exact hne hperm.symm.eq_nil
  | cons t rest =>
      have heq : get_english_name df name = .ok t.english := by
        rw [get_english_name_eq, hs]
      obtain ⟨pre, suf, hdec, hpre⟩ := sortHead_firstMax _ t rest hs
      refine ⟨t, pre, suf, heq, hdec, hpre, ?_⟩
      intro s hsm
      have hsorted : List.Sorted rScore (t :: rest) :=
        hs ▸ List.sorted_insertionSort rScore _
      have hs_mem : s ∈ t :: rest := by
        rw [← hs]
        exact (List.mem_insertionSort rScore).mpr hsm
      rcases List.mem_cons.mp hs_mem with h2 | h2
      · rw [h2]
      · exact List.rel_of_sorted_cons hsorted s h2

/-! ## The claims -/

/-- C1: for every query and non-empty dataset, `get_english_name` runs
`get_top_matches` twice — once with the native language (scanning the
`name` column), once with `lang='english_name'` (scanning the
`english_name` column) — and returns the `english_name` field of a
maximal-scoring element of the concatenation of the two result lists. -/
theorem claim_c1 (df : List NameRecord) (name : String) (hdf : df ≠ []) :
    get_top_matches df TOP_K name NATIVE_LANG "levenshtein" =
      .ok (topMatchesBy df TOP_K "name" (levScore name)) ∧
    get_top_matches df TOP_K name "english_name" "levenshtein" =
      .ok (topMatchesBy df TOP_K "english_name" (levScore name)) ∧
    ∃ t, t ∈ topMatchesBy df TOP_K "english_name" (levScore name) ++
        topMatchesBy df TOP_K "name" (levScore name) ∧
      (∀ s ∈ topMatchesBy df TOP_K "english_name" (levScore name) ++
          topMatchesBy df TOP_K "name" (levScore name), s.score ≤ t.score) ∧
      get_english_name df name = .ok t.english := by
  refine ⟨by rfl, by rfl, ?_⟩
  obtain ⟨t, pre, suf, heq, hdec, _, hmax⟩ := get_english_name_spec df name hdf
  refine ⟨t, ?_, hmax, heq⟩
  rw [hdec]
  exact List.mem_append.mpr (Or.inr (List.mem_cons_self t suf))

/-- C1 witness: the claim instantiated on a one-row dataset. -/
theorem claim_c1_witness :
    ([(⟨"x", "Ali", "m"⟩ : NameRecord)] ≠ []) ∧
    (get_top_matches [(⟨"x", "Ali", "m"⟩ : NameRecord)] TOP_K "Ali" NATIVE_LANG
        "levenshtein" =
      .ok (topMatchesBy [⟨"x", "Ali", "m"⟩] TOP_K "name" (levScore "Ali")) ∧
    get_top_matches [(⟨"x", "Ali", "m"⟩ : NameRecord)] TOP_K "Ali" "english_name"
        "levenshtein" =
      .ok (topMatchesBy [⟨"x", "Ali", "m"⟩] TOP_K "english_name" (levScore "Ali")) ∧
    ∃ t, t ∈ topMatchesBy [⟨"x", "Ali", "m"⟩] TOP_K "english_name" (levScore "Ali") ++
        topMatchesBy [⟨"x", "Ali", "m"⟩] TOP_K "name" (levScore "Ali") ∧
      (∀ s ∈ topMatchesBy [⟨"x", "Ali", "m"⟩] TOP_K "english_name" (levScore "Ali") ++
          topMatchesBy [⟨"x", "Ali", "m"⟩] TOP_K "name" (levScore "Ali"),
        s.score ≤ t.score) ∧
      get_english_name [⟨"x", "Ali", "m"⟩] "Ali" = .ok t.english) :=
  ⟨by decide, claim_c1 [⟨"x", "Ali", "m"⟩] "Ali" (by decide)⟩

/-- C2 counterexample: on the dataset `[{name "ab", english "X"},
{name "zzzz", english "ab"}]` with query `"ab"`, the native pass and the
English pass each contain a score-100 match (rows 0 and 1 respectively,
with different canonical forms), yet `get_english_name` returns `"ab"`,
the canonical of the English-pass element — the source concatenates
`english_mathces + native_matches`, English first, so on an exact tie the
English-column element wins, not the native-column one. -/
theorem claim_c2_counterexample :
    get_top_matches [⟨"ab", "X", "m"⟩, ⟨"zzzz", "ab", "f"⟩] TOP_K "ab" NATIVE_LANG
        "levenshtein" =
      .ok [⟨"ab", 100, "X", 0⟩, ⟨"zzzz", 0, "ab", 1⟩] ∧
    get_top_matches [⟨"ab", "X", "m"⟩, ⟨"zzzz", "ab", "f"⟩] TOP_K "ab" "english_name"
        "levenshtein" =
      .ok [⟨"ab", 100, "ab", 1⟩, ⟨"X", 0, "X", 0⟩] ∧
    get_english_name [⟨"ab", "X", "m"⟩, ⟨"zzzz", "ab", "f"⟩] "ab" = .ok "ab" ∧
    ("ab" : String) ≠ "X" := by
  have e1 : levScore "ab" "ab" = 100 := (levScore_eq_100_iff "ab" "ab").mpr rfl
  have e2 : levScore "ab" "X" = 0 := by
    have h : lev "ab".data "X".data = 2 := by decide
    have h1 : ("ab".data).length = 2 := by decide
    have h2 : ("X".data).length = 1 := by decide
    rw [levScore, normSim, h, h1, h2]
    norm_num
  have e3 : levScore "ab" "zzzz" = 0 := by
    have h : lev "ab".data "zzzz".data = 4 := by decide
    have h1 : ("ab".data).length = 2 := by decide
    have h2 : ("zzzz".data).length = 4 := by decide
    rw [levScore, normSim, h, h1, h2]
    norm_num
  have hnatv : get_top_matches [⟨"ab", "X", "m"⟩, ⟨"zzzz", "ab", "f"⟩] TOP_K "ab"
      NATIVE_LANG "levenshtein" =
      .ok ((List.insertionSort rScore
        [⟨"ab", levScore "ab" "ab", "X", 0⟩, ⟨"zzzz", levScore "ab" "zzzz", "ab", 1⟩]).take 3) := by
    rfl
  have heng : get_top_matches [⟨"ab", "X", "m"⟩, ⟨"zzzz", "ab", "f"⟩] TOP_K "ab"
      "english_name" "levenshtein" =
      .ok ((List.insertionSort rScore
        [⟨"X", levScore "ab" "X", "X", 0⟩, ⟨"ab", levScore "ab" "ab", "ab", 1⟩]).take 3) := by
    rfl
  rw [e1, e3] at hnatv
  rw [e1, e2] at heng
  have hnatv2 : get_top_matches [⟨"ab", "X", "m"⟩, ⟨"zzzz", "ab", "f"⟩] TOP_K "ab"
      NATIVE_LANG "levenshtein" = .ok [⟨"ab", 100, "X", 0⟩, ⟨"zzzz", 0, "ab", 1⟩] := by
    rw [hnatv]; decide
  have heng2 : get_top_matches [⟨"ab", "X", "m"⟩, ⟨"zzzz", "ab", "f"⟩] TOP_K "ab"
      "english_name" "levenshtein" = .ok [⟨"ab", 100, "ab", 1⟩, ⟨"X", 0, "X", 0⟩] := by
    rw [heng]; decide
  refine ⟨hnatv2, heng2, ?_, by decide⟩
  rw [get_english_name, hnatv2, heng2]
  decide

/-- C2 amended: on a tie for the maximal score across the two passes,
`get_english_name` returns the canonical of the first-seen maximal element
in merge order with the ENGLISH-column sequence placed first (the source
computes `sorted(english_mathces + native_matches, ...)`): the returned
element heads a decomposition of the merged list in which everything
before it scores strictly less. -/
theorem claim_c2_amended (df : List NameRecord) (name : String) (hdf : df ≠ []) :
    ∃ t pre suf,
      get_english_name df name = .ok t.english ∧
      topMatchesBy df TOP_K "english_name" (levScore name) ++
        topMatchesBy df TOP_K "name" (levScore name) = pre ++ t :: suf ∧
      (∀ s ∈ pre, s.score < t.score) ∧
      (∀ s ∈ topMatchesBy df TOP_K "english_name" (levScore name) ++
          topMatchesBy df TOP_K "name" (levScore name), s.score ≤ t.score) :=
  get_english_name_spec df name hdf

/-- C2 amended witness: instantiated on a one-row dataset. -/
theorem claim_c2_amended_witness :
    ∃ t pre suf,
      get_english_name [(⟨"x", "Ali", "m"⟩ : NameRecord)] "Ali" = .ok t.english ∧
      topMatchesBy [⟨"x", "Ali", "m"⟩] TOP_K "english_name" (levScore "Ali") ++
        topMatchesBy [⟨"x", "Ali", "m"⟩] TOP_K "name" (levScore "Ali") = pre ++ t :: suf ∧
      (∀ s ∈ pre, s.score < t.score) ∧
      (∀ s ∈ topMatchesBy [⟨"x", "Ali", "m"⟩] TOP_K "english_name" (levScore "Ali") ++
          topMatchesBy [⟨"x", "Ali", "m"⟩] TOP_K "name" (levScore "Ali"),
        s.score ≤ t.score) :=
  claim_c2_amended [⟨"x", "Ali", "m"⟩] "Ali" (by decide)

/-- C3 counterexample: the method name `damerau_levenshtein` named by the
claim is NOT accepted by the code — it raises
`ValueError("Unsupported method: damerau_levenshtein")` (the code's
accepted spelling is `damerau`). -/
theorem claim_c3_counterexample :
    get_top_matches [⟨"a", "b", "c"⟩] TOP_K "q" NATIVE_LANG "damerau_levenshtein" =
      .error (.unsupportedMethod "damerau_levenshtein") := by rfl

/-- C3 amended: `get_top_matches` accepts exactly the three method names
`levenshtein`, `damerau` and `jaro_winkler`; every other method string
(including the spec's `damerau_levenshtein`) fails with the unsupported
method error. -/
theorem claim_c3_amended (df : List NameRecord) (k : Nat) (name lang : String) :
    (∃ l1, get_top_matches df k name lang "levenshtein" = .ok l1) ∧
    (∃ l2, get_top_matches df k name lang "damerau" = .ok l2) ∧
    (∃ l3, get_top_matches df k name lang "jaro_winkler" = .ok l3) ∧
    ∀ method, method ≠ "levenshtein" → method ≠ "damerau" → method ≠ "jaro_winkler" →
      get_top_matches df k name lang method = .error (.unsupportedMethod method) :=
  ⟨⟨_, get_top_matches_lev df k name lang⟩, ⟨_, get_top_matches_dam df k name lang⟩,
    ⟨_, get_top_matches_jw df k name lang⟩,
    fun method h1 h2 h3 => get_top_matches_other df k name lang method h1 h2 h3⟩

/-- C3 amended witness: instantiated concretely, with the unsupported
branch discharged at `damerau_levenshtein`. -/
theorem claim_c3_amended_witness :
    (∃ l1, get_top_matches [(⟨"a", "b", "c"⟩ : NameRecord)] 3 "q" "fa" "levenshtein" =
      .ok l1) ∧
    get_top_matches [(⟨"a", "b", "c"⟩ : NameRecord)] 3 "q" "fa" "damerau_levenshtein" =
      .error (.unsupportedMethod "damerau_levenshtein") :=
  ⟨(claim_c3_amended [⟨"a", "b", "c"⟩] 3 "q" "fa").1,
    (claim_c3_amended [⟨"a", "b", "c"⟩] 3 "q" "fa").2.2.2 "damerau_levenshtein"
      (by decide) (by decide) (by decide)⟩

/-- C4: over a non-empty dataset and non-empty query, `get_english_name`
returns a string and never fails; over the empty dataset both merged
result lists are empty and it fails with the no-match error (the
`IndexError` of `[0]`, `NoMatchFoundError` in the spec's taxonomy). -/
theorem claim_c4 (df : List NameRecord) (name : String) (hq : name ≠ "") :
    (df ≠ [] → ∃ s, get_english_name df name = .ok s) ∧
    get_english_name ([] : List NameRecord) name = .error .noMatchFound := by
  constructor
  · intro hdf
    obtain ⟨t, _, _, heq, _⟩ := get_english_name_spec df name hdf
    exact ⟨t.english, heq⟩
  · rfl

/-- C4 witness: instantiated on a one-row dataset and the query `Ali`. -/
theorem claim_c4_witness :
    ("Ali" : String) ≠ "" ∧
    (∃ s, get_english_name [(⟨"x", "Ali", "m"⟩ : NameRecord)] "Ali" = .ok s) ∧
    get_english_name ([] : List NameRecord) "Ali" = .error .noMatchFound :=
  ⟨by decide, (claim_c4 [⟨"x", "Ali", "m"⟩] "Ali" (by decide)).1 (by decide),
    (claim_c4 [⟨"x", "Ali", "m"⟩] "Ali" (by decide)).2⟩

theorem head100_exact (df : List NameRecord) (k : Nat) (q : String) (f : String → ℚ)
    (hub : ∀ x, f x ≤ 100) (hiff : ∀ x, f x = 100 ↔ q = x) (r : NameRecord)
    (hr : r ∈ df) (heq : r.english_name = q) (hk : 1 ≤ k) :
    ∃ t rest, topMatchesBy df k "english_name" f = t :: rest ∧
      t.score = 100 ∧ t.matched = q ∧ t.english = q := by
  have hcol : getCol "english_name" r = r.english_name := rfl
  obtain ⟨t, rest, htop, hscore, hf, rt, hrt, hmref, henref⟩ :=
    topMatchesBy_head100 df k "english_name" f r hr hk hub
      (by rw [hcol, heq]; exact (hiff q).mpr rfl)
  have hmq : t.matched = q := ((hiff t.matched).mp hf).symm
  have henq : t.english = q := by
    have hcol2 : getCol "english_name" rt = rt.english_name := rfl
    rw [henref, ← hcol2, ← hmref, hmq]
  exact ⟨t, rest, htop, hscore, hmq, henq⟩

/-- C5: when the query equals some row's `english_name`
character-for-character, `get_top_matches` against the English column
(`lang='en'`) puts a row whose English form is the query first, with
score 100, under each of the three supported metrics. -/
theorem claim_c5 (df : List NameRecord) (k : Nat) (q method : String) (r : NameRecord)
    (hr : r ∈ df) (heq : r.english_name = q) (hk : 1 ≤ k)
    (hm : method = "levenshtein" ∨ method = "damerau" ∨ method = "jaro_winkler") :
    ∃ t rest, get_top_matches df k q "en" method = .ok (t :: rest) ∧
      t.score = 100 ∧ t.matched = q ∧ t.english = q := by
  rcases hm with hm | hm | hm <;> subst hm
  · obtain ⟨t, rest, htop, h1, h2, h3⟩ :=
      head100_exact df k q (levScore q) (levScore_le_100 q) (levScore_eq_100_iff q)
        r hr heq hk
    refine ⟨t, rest, ?_, h1, h2, h3⟩
    have hc : columnFor "en" = "english_name" := rfl
    rw [get_top_matches_lev, hc, htop]
  · obtain ⟨t, rest, htop, h1, h2, h3⟩ :=
      head100_exact df k q (dlScore q) (dlScore_le_100 q) (dlScore_eq_100_iff q)
        r hr heq hk
    refine ⟨t, rest, ?_, h1, h2, h3⟩
    have hc : columnFor "en" = "english_name" := rfl
    rw [get_top_matches_dam, hc, htop]
  · obtain ⟨t, rest, htop, h1, h2, h3⟩ :=
      head100_exact df k q (jwScore q) (jwScore_le_100 q) (jwScore_eq_100_iff q)
        r hr heq hk
    refine ⟨t, rest, ?_, h1, h2, h3⟩
    have hc : columnFor "en" = "english_name" := rfl
    rw [get_top_matches_jw, hc, htop]

/-- C5 witness: the spec's scenario — `get_top_matches("Ali", english
column, jaro_winkler, k=1)` on the two-row Persian dataset returns a
score-100 result whose canonical English form is `"Ali"`. -/
theorem claim_c5_witness :
    ((⟨"علی", "Ali", "male"⟩ : NameRecord) ∈
      [(⟨"علی", "Ali", "male"⟩ : NameRecord), ⟨"زهرا", "Zahra", "female"⟩]) ∧
    ∃ t rest,
      get_top_matches [(⟨"علی", "Ali", "male"⟩ : NameRecord), ⟨"زهرا", "Zahra", "female"⟩]
          1 "Ali" "en" "jaro_winkler" = .ok (t :: rest) ∧
      t.score = 100 ∧ t.matched = "Ali" ∧ t.english = "Ali" :=
  ⟨by decide,
    claim_c5 [⟨"علی", "Ali", "male"⟩, ⟨"زهرا", "Zahra", "female"⟩] 1 "Ali"
      "jaro_winkler" ⟨"علی", "Ali", "male"⟩ (by decide) rfl (by decide)
      (Or.inr (Or.inr rfl))⟩

/-- C6: under every supported metric, any column and any `k`, the list
returned by `get_top_matches` is descending in score, and on exact score
ties the dataset row indices are ascending (first-seen wins, pandas
`nlargest(keep='first')` stability). -/
theorem claim_c6 (df : List NameRecord) (k : Nat) (name lang method : String)
    (hm : method = "levenshtein" ∨ method = "damerau" ∨ method = "jaro_winkler") :
    ∃ l, get_top_matches df k name lang method = .ok l ∧
      l.Pairwise (fun u v => v.score ≤ u.score ∧ (u.score = v.score → u.idx < v.idx)) := by
  rcases hm with hm | hm | hm <;> subst hm
  · exact ⟨_, get_top_matches_lev df k name lang,
      topMatchesBy_pairwise df k (columnFor lang) (levScore name)⟩
  · exact ⟨_, get_top_matches_dam df k name lang,
      topMatchesBy_pairwise df k (columnFor lang) (dlScore name)⟩
  · exact ⟨_, get_top_matches_jw df k name lang,
      topMatchesBy_pairwise df k (columnFor lang) (jwScore name)⟩

/-- C6 witness: instantiated for the levenshtein method on a two-row
dataset. -/
theorem claim_c6_witness :
    ∃ l, get_top_matches [(⟨"a", "b", "c"⟩ : NameRecord), ⟨"d", "e", "f"⟩] 3 "q" "fa"
        "levenshtein" = .ok l ∧
      l.Pairwise (fun u v => v.score ≤ u.score ∧ (u.score = v.score → u.idx < v.idx)) :=
  claim_c6 [⟨"a", "b", "c"⟩, ⟨"d", "e", "f"⟩] 3 "q" "fa" "levenshtein" (Or.inl rfl)

/-- C7: under every supported metric, any column, query and `k`, the
length of the list returned by `get_top_matches` is exactly
`min k (dataset size)`. -/
theorem claim_c7 (df : List NameRecord) (k : Nat) (name lang method : String)
    (hm : method = "levenshtein" ∨ method = "damerau" ∨ method = "jaro_winkler") :
    ∃ l, get_top_matches df k name lang method = .ok l ∧ l.length = min k df.length := by
  rcases hm with hm | hm | hm <;> subst hm
  · exact ⟨_, get_top_matches_lev df k name lang,
      topMatchesBy_length df k (columnFor lang) (levScore name)⟩
  · exact ⟨_, get_top_matches_dam df k name lang,
      topMatchesBy_length df k (columnFor lang) (dlScore name)⟩
  · exact ⟨_, get_top_matches_jw df k name lang,
      topMatchesBy_length df k (columnFor lang) (jwScore name)⟩

/-- C7 witness: a two-row dataset with `k = 3` yields exactly
`min 3 2 = 2` results. -/
theorem claim_c7_witness :
    ∃ l, get_top_matches [(⟨"a", "b", "c"⟩ : NameRecord), ⟨"d", "e", "f"⟩] 3 "q" "fa"
        "levenshtein" = .ok l ∧
      l.length = min 3 ([(⟨"a", "b", "c"⟩ : NameRecord), ⟨"d", "e", "f"⟩]).length :=
  claim_c7 [⟨"a", "b", "c"⟩, ⟨"d", "e", "f"⟩] 3 "q" "fa" "levenshtein" (Or.inl rfl)

/-- C8: each of the three row-scoring functions maps every pair of
non-empty strings into `[0, 100]`, reaching `100` exactly on identical
strings. -/
theorem claim_c8 (a b : String) (ha : a ≠ "") (hb : b ≠ "") :
    (0 ≤ levScore a b ∧ levScore a b ≤ 100 ∧ (levScore a b = 100 ↔ a = b)) ∧
    (0 ≤ dlScore a b ∧ dlScore a b ≤ 100 ∧ (dlScore a b = 100 ↔ a = b)) ∧
    (0 ≤ jwScore a b ∧ jwScore a b ≤ 100 ∧ (jwScore a b = 100 ↔ a = b)) :=
  ⟨⟨levScore_nonneg a b, levScore_le_100 a b, levScore_eq_100_iff a b⟩,
    ⟨dlScore_nonneg a b, dlScore_le_100 a b, dlScore_eq_100_iff a b⟩,
    ⟨jwScore_nonneg a b, jwScore_le_100 a b, jwScore_eq_100_iff a b⟩⟩

/-- C8 witness: instantiated at the non-empty pair `("ab", "ba")`. -/
theorem claim_c8_witness :
    ("ab" : String) ≠ "" ∧ ("ba" : String) ≠ "" ∧
    ((0 ≤ levScore "ab" "ba" ∧ levScore "ab" "ba" ≤ 100 ∧
        (levScore "ab" "ba" = 100 ↔ ("ab" : String) = "ba")) ∧
      (0 ≤ dlScore "ab" "ba" ∧ dlScore "ab" "ba" ≤ 100 ∧
        (dlScore "ab" "ba" = 100 ↔ ("ab" : String) = "ba")) ∧
      (0 ≤ jwScore "ab" "ba" ∧ jwScore "ab" "ba" ≤ 100 ∧
        (jwScore "ab" "ba" = 100 ↔ ("ab" : String) = "ba"))) :=
  ⟨by decide, by decide, claim_c8 "ab" "ba" (by decide) (by decide)⟩

/-- C9 counterexample: a parseable file lacking both required columns is
loaded WITHOUT error — `DataManager.__init__` is a bare `pd.read_csv`
with no column validation, so "lacks either required column" does not
make loading fail. -/
theorem claim_c9_counterexample :
    dataManagerInit (.parsed ["gender"] [["m"]]) = .ok (["gender"], [["m"]]) ∧
    ("name" : String) ∉ (["gender"] : List String) ∧
    ("english_name" : String) ∉ (["gender"] : List String) :=
  ⟨rfl, by decide, by decide⟩

/-- C9 amended: dataset loading fails exactly when the reference file is
missing or unreadable/unparseable; a parseable file always loads, even
one lacking the required columns (their absence only surfaces later, on
column access). -/
theorem claim_c9_amended (src : CsvSource) :
    (dataManagerInit src = .error .fileMissing ↔ src = .fileMissing) ∧
    (dataManagerInit src = .error .unparseable ↔ src = .unparseable) ∧
    ∀ header rows, src = .parsed header rows →
      dataManagerInit src = .ok (header, rows) := by
  cases src <;> simp [dataManagerInit, read_csv]

/-- C9 amended witness: a parsed file with a single unrelated column
loads successfully; a missing file fails. -/
theorem claim_c9_amended_witness :
    dataManagerInit (CsvSource.parsed ["a"] []) = .ok (["a"], []) ∧
    (dataManagerInit CsvSource.fileMissing = .error .fileMissing ↔
      CsvSource.fileMissing = CsvSource.fileMissing) :=
  ⟨(claim_c9_amended (.parsed ["a"] [])).2.2 ["a"] [] rfl,
    (claim_c9_amended .fileMissing).1⟩

/-- C10: the `lang` argument is never validated — every `lang` other than
`'fa'` (including the column name `'english_name'` that
`get_english_name` actually passes) selects the `english_name` column and
raises no error under any supported method; only `lang = 'fa'` selects
the native column. -/
theorem claim_c10 (df : List NameRecord) (k : Nat) (name lang : String)
    (h : lang ≠ "fa") :
    columnFor lang = "english_name" ∧
    columnFor "fa" = "name" ∧
    ∀ method, method = "levenshtein" ∨ method = "damerau" ∨ method = "jaro_winkler" →
      ∃ l, get_top_matches df k name lang method = .ok l ∧
        get_top_matches df k name lang method =
          get_top_matches df k name "english_name" method := by
  have hcol := columnFor_ne lang h
  refine ⟨hcol, columnFor_fa, ?_⟩
  intro method hm
  rcases hm with hm | hm | hm <;> subst hm
  · refine ⟨_, get_top_matches_lev df k name lang, ?_⟩
    rw [get_top_matches_lev, get_top_matches_lev, hcol]
    rfl
  · refine ⟨_, get_top_matches_dam df k name lang, ?_⟩
    rw [get_top_matches_dam, get_top_matches_dam, hcol]
    rfl
  · refine ⟨_, get_top_matches_jw df k name lang, ?_⟩
    rw [get_top_matches_jw, get_top_matches_jw, hcol]
    rfl

/-- C10 witness: instantiated at the very string `'english_name'` that
`get_english_name` passes as `lang`. -/
theorem claim_c10_witness :
    columnFor "english_name" = "english_name" ∧
    ∃ l, get_top_matches [(⟨"a", "b", "c"⟩ : NameRecord)] 3 "q" "english_name"
        "levenshtein" = .ok l ∧
      get_top_matches [(⟨"a", "b", "c"⟩ : NameRecord)] 3 "q" "english_name"
          "levenshtein" =
        get_top_matches [(⟨"a", "b", "c"⟩ : NameRecord)] 3 "q" "english_name"
          "levenshtein" :=
  ⟨(claim_c10 [⟨"a", "b", "c"⟩] 3 "q" "english_name" (by decide)).1,
    (claim_c10 [⟨"a", "b", "c"⟩] 3 "q" "english_name" (by decide)).2.2 "levenshtein"
      (Or.inl rfl)⟩
